import Mathlib

/-!
Verification development for a simple atomic worker pool
(a growable job buffer shared by one dispatcher and N workers,
coordinated by futex-style sleep/wake gates on atomic words).

The development shallowly embeds the C++ source:
- `AtomicArray` mirrors the templated class of the same name
  (backing storage, tail/head cursors, the three gate words);
- `AtomicArray.append`, `AtomicArray.fetch`, `AtomicArray.emptyOut`
  mirror its member functions statement by statement;
- `dispatchJobs`, `createThreads`, `endThreads`, and the worker loop
  (`workerStep`, one transition per atomic access of `threadFunction`)
  mirror the free functions;
- `step`/`run` give an interleaving small-step semantics of one
  dispatcher thread plus a pool of workers, used for the claims about
  rounds, gates and barriers.

Machine integers: the cursors and the size are C `int`; they are
modelled as `Int` (exact, no wrap), faithful as long as fewer than
2^31 operations occur, which covers every property below.  The gate
words are `uint32_t` and only ever hold 0 or 1 here, modelled as `Nat`.

The sleep/wake primitive (`lockless_sleep_and_wake.hpp`) is not part
of the sources; it is modelled from the spec contract: `sleep(word)`
blocks while the word is zero and returns once it is observed nonzero
(a step enabled exactly when the word is nonzero), `wake_all(word)`
sets the word nonzero; neither operation clears the word.
-/

namespace SimpleAtomicWorkerPool

/-- Modelled from the spec: the value `wake_all` stores into a gate word.
The contract only says "sets the word to nonzero"; we fix the
representative 1. `sleep` is modelled by step enabledness: a thread
parked on a word may resume exactly when the word is nonzero. -/
def wake_all_word : Nat := 1

/-- Shallow embedding of the C++ class `AtomicArray<J>`.
`backingArray` is the heap block `J*` as a list whose length tracks the
allocation (`size`); `generation` counts reallocations, so that a pointer
into a superseded (freed) block can be recognised as dangling. -/
structure AtomicArray (J : Type) where
  backingArray : List J
  tailCursor : Int
  headCursor : Int
  size : Int
  worker_start : Nat
  worker_end : Nat
  dispatcher_wake : Nat
  generation : Nat
deriving DecidableEq

/-- The constructor `AtomicArray(int size)`: allocates `new J[size]`
(default-initialised slots) and zeroes both cursors and all three gate
words. -/
def AtomicArray.init (J : Type) [Inhabited J] (size : Int) : AtomicArray J :=
  { backingArray := List.replicate size.toNat default
    tailCursor := 0
    headCursor := 0
    size := size
    worker_start := 0
    worker_end := 0
    dispatcher_wake := 0
    generation := 0 }

/-- The value `append` returns: in C++ a raw pointer `backingArray + index`.
We model a pointer as the pair of the generation of the block it points
into and the element index; the pointer dangles once the buffer has been
reallocated (its generation no longer matches). -/
structure JobPtr where
  gen : Nat
  idx : Int
deriving DecidableEq

/-- Dereference a `JobPtr`: yields the job only while the pointed-to block
is still the live one (same generation); a dangling pointer yields
nothing (in C++, undefined behaviour). -/
def JobPtr.deref {J : Type} (p : JobPtr) (a : AtomicArray J) : Option J :=
  if p.gen = a.generation then a.backingArray.get? p.idx.toNat else none

/-- `AtomicArray::append`, statement by statement:
`index = tailCursor; ++tailCursor;` then, if `index == size`, a new block
of `size*2` slots is allocated, `memcpy` copies the first `size` elements
of the old block into it, `size` doubles and the old block is freed
(generation bump); finally the element is written at `index` and the
pointer to that slot is returned. -/
def AtomicArray.append {J : Type} [Inhabited J] (a : AtomicArray J) (element : J) :
    AtomicArray J × JobPtr :=
  let index := a.tailCursor
  let a1 : AtomicArray J := { a with tailCursor := a.tailCursor + 1 }
  let a2 : AtomicArray J :=
    if index = a1.size then
      { a1 with
        backingArray :=
          a1.backingArray.take a1.size.toNat ++ List.replicate a1.size.toNat default
        size := a1.size * 2
        generation := a1.generation + 1 }
    else a1
  let a3 : AtomicArray J := { a2 with backingArray := a2.backingArray.set index.toNat element }
  (a3, { gen := a2.generation, idx := index })

/-- `AtomicArray::fetch`: `index = headCursor.fetch_add(1);` then returns
null if `index >= tailCursor`, else the pointer `backingArray + index`
(modelled by the index; the whole function is one atomic step in the
small-step semantics below). Note the cursor is incremented in every
call, also the exhausted ones. -/
def AtomicArray.fetch {J : Type} (a : AtomicArray J) : Option Int × AtomicArray J :=
  let index := a.headCursor
  let a1 : AtomicArray J := { a with headCursor := a.headCursor + 1 }
  if index ≥ a1.tailCursor then (none, a1) else (some index, a1)

/-- `AtomicArray::emptyOut`: resets both cursors to 0 and touches nothing
else. -/
def AtomicArray.emptyOut {J : Type} (a : AtomicArray J) : AtomicArray J :=
  { a with tailCursor := 0, headCursor := 0 }

/-- The thread-count arithmetic shared verbatim by `createThreads` and
`endThreads`:
`threadNumber = std::min(threadNumber, (int) std::thread::hardware_concurrency());`
`if(!threadNumber) threadNumber = 1;`
`hardware` stands for the value `hardware_concurrency()` returned. -/
def resolveThreadCount (threadNumber hardware : Int) : Int :=
  let t := min threadNumber hardware
  if t = 0 then 1 else t

/-- `createThreads`: stores 0 into `worker_start`, resolves the thread
count, and spawns that many workers running `threadFunction` (thread
creation itself has no effect on the shared state; the worker behaviour
is the small-step semantics below). Returns the state effect and the
resolved count. -/
def createThreads {J : Type} (a : AtomicArray J) (threadNumber hardware : Int) :
    AtomicArray J × Int :=
  ({ a with worker_start := 0 }, resolveThreadCount threadNumber hardware)

/-- `endThreads`: resolves the thread count with the same two lines as
`createThreads`, stores 1 into `worker_end` and wakes all workers parked
on `worker_start` (joining has no further effect on the shared state). -/
def endThreads {J : Type} (a : AtomicArray J) (threadNumber hardware : Int) :
    AtomicArray J × Int :=
  ({ a with worker_end := 1, worker_start := wake_all_word },
   resolveThreadCount threadNumber hardware)

/-- `dispatchJobs` as the dispatcher's own state transformer:
`wake_all(worker_start)`, then `sleep(dispatcher_wake)` — during which
the workers run, represented by the interference function `interf` —
then `worker_start.store(0)` and `emptyOut()`.  (`sleep` itself writes
nothing; it only blocks until `dispatcher_wake` is nonzero, which is
accounted for in the small-step semantics.) -/
def dispatchJobs {J : Type} (interf : AtomicArray J → AtomicArray J) (a : AtomicArray J) :
    AtomicArray J :=
  let a1 : AtomicArray J := { a with worker_start := wake_all_word }
  let a2 : AtomicArray J := interf a1
  let a3 : AtomicArray J := { a2 with worker_start := 0 }
  a3.emptyOut

/-- The fields a worker thread may write while the dispatcher sleeps
inside `dispatchJobs`: `headCursor` (via `fetch`) and `dispatcher_wake`
(via `wake_all`).  Everything else is untouched by `threadFunction`;
this is discharged against the worker transitions by
`workerStep_writes_frame` below. -/
def WorkerWrites {J : Type} (interf : AtomicArray J → AtomicArray J) : Prop :=
  ∀ b : AtomicArray J,
    (interf b).backingArray = b.backingArray ∧
    (interf b).tailCursor = b.tailCursor ∧
    (interf b).size = b.size ∧
    (interf b).worker_start = b.worker_start ∧
    (interf b).worker_end = b.worker_end ∧
    (interf b).generation = b.generation

/-! ## Small-step interleaving semantics of the pool

One dispatcher thread (running a straight-line program of `append` and
`dispatchJobs` calls, as in the example program) and a pool of worker
threads, each running `threadFunction`.  Each transition is one atomic
access; an adversarial scheduler picks which thread moves. -/

/-- Program counter of a worker inside `threadFunction`:
`park`      — blocked in `sleep(worker_start)`;
`checkEnd`  — about to load `worker_end`;
`fetchJob`  — about to call `fetch()` (one atomic step);
`exec i`    — holding the pointer to slot `i`, about to run the user
              function on it;
`wakeDisp`  — about to call `wake_all(dispatcher_wake)` and loop back;
`finished`  — returned (joinable). -/
inductive WPC where
  | park
  | checkEnd
  | fetchJob
  | exec (i : Int)
  | wakeDisp
  | finished
deriving DecidableEq

/-- A command of the dispatcher's program (the pool owner's code between
`createThreads` and `endThreads`, e.g. the example's main loop). -/
inductive DCmd (J : Type) where
  | append (j : J)
  | dispatch
deriving DecidableEq

/-- Program counter of the dispatcher inside `dispatchJobs`:
`idle`       — between calls, about to run the next program command;
`wakeWorkers` — about to `wake_all(worker_start)`;
`sleepWake`  — blocked in `sleep(dispatcher_wake)`;
`clearStart` — about to `worker_start.store(0)`;
`emptyPhase` — about to `emptyOut()` and return. -/
inductive DPC where
  | idle
  | wakeWorkers
  | sleepWake
  | clearStart
  | emptyPhase
deriving DecidableEq

/-- Global state: the shared `AtomicArray`, the dispatcher's remaining
program and program counter, each worker's program counter, and the log
of jobs executed by the user work function (in execution order). -/
structure SysState (J : Type) where
  arr : AtomicArray J
  prog : List (DCmd J)
  dpc : DPC
  wpcs : List WPC
  executed : List J
deriving DecidableEq

/-- One transition of a worker running `threadFunction`, given the shared
array and the worker's program counter; returns the new shared array, the
new counter and the new execution log.  A worker parked on
`worker_start` can only move when the word is nonzero (the sleep
contract); a blocked or finished worker's step is a stutter. -/
def workerStep {J : Type} [Inhabited J] (a : AtomicArray J) (pc : WPC) (ex : List J) :
    AtomicArray J × WPC × List J :=
  match pc with
  | .park => if a.worker_start ≠ 0 then (a, .checkEnd, ex) else (a, .park, ex)
  | .checkEnd => if a.worker_end ≠ 0 then (a, .finished, ex) else (a, .fetchJob, ex)
  | .fetchJob =>
      match a.fetch with
      | (none, a1) => (a1, .wakeDisp, ex)
      | (some i, a1) => (a1, .exec i, ex)
  | .exec i => (a, .fetchJob, ex ++ [a.backingArray.getD i.toNat default])
  | .wakeDisp => ({ a with dispatcher_wake := wake_all_word }, .park, ex)
  | .finished => (a, .finished, ex)

/-- One transition of the dispatcher thread.  From `idle` it runs the next
program command (`append` is a single step: it races nothing by the
caller contract); inside `dispatchJobs` each atomic access is one step,
and `sleep(dispatcher_wake)` can complete only when the word is nonzero. -/
def dispatcherStep {J : Type} [Inhabited J] (s : SysState J) : SysState J :=
  match s.dpc with
  | .idle =>
      match s.prog with
      | [] => s
      | .append j :: rest => { s with arr := (s.arr.append j).1, prog := rest }
      | .dispatch :: rest => { s with dpc := .wakeWorkers, prog := rest }
  | .wakeWorkers =>
      { s with arr := { s.arr with worker_start := wake_all_word }, dpc := .sleepWake }
  | .sleepWake =>
      if s.arr.dispatcher_wake ≠ 0 then { s with dpc := .clearStart } else s
  | .clearStart =>
      { s with arr := { s.arr with worker_start := 0 }, dpc := .emptyPhase }
  | .emptyPhase =>
      { s with arr := s.arr.emptyOut, dpc := .idle }

/-- Scheduler choice: move the dispatcher, or move worker number `i`. -/
inductive Choice where
  | disp
  | work (i : Nat)
deriving DecidableEq

/-- One scheduled transition of the whole system. -/
def step {J : Type} [Inhabited J] (c : Choice) (s : SysState J) : SysState J :=
  match c with
  | .disp => dispatcherStep s
  | .work i =>
      match s.wpcs.get? i with
      | none => s
      | some pc =>
          let r := workerStep s.arr pc s.executed
          { s with arr := r.1, wpcs := s.wpcs.set i r.2.1, executed := r.2.2 }

/-- Run a finite schedule. -/
def run {J : Type} [Inhabited J] (cs : List Choice) (s : SysState J) : SysState J :=
  cs.foldl (fun t c => step c t) s

/-! ## Derived iteration forms used to state the claims -/

/-- `n` consecutive `fetch` calls (the serialisation of `n` racing calls:
each `fetch` is a single atomic access), collecting the indices actually
handed out, in order. -/
def fetchN {J : Type} (n : Nat) (a : AtomicArray J) : List Int × AtomicArray J :=
  match n with
  | 0 => ([], a)
  | n + 1 =>
      let r := a.fetch
      let rest := fetchN n r.2
      (r.1.toList ++ rest.1, rest.2)

/-- Append a whole batch of jobs (the dispatcher's fill phase). -/
def appendAll {J : Type} [Inhabited J] (a : AtomicArray J) (js : List J) : AtomicArray J :=
  js.foldl (fun b j => (b.append j).1) a

/-- A single buffer operation, for stating invariants over arbitrary
operation sequences. -/
inductive BufOp (J : Type) where
  | append (j : J)
  | fetch
  | emptyOut
deriving DecidableEq

/-- Apply one buffer operation to the state. -/
def applyOp {J : Type} [Inhabited J] (a : AtomicArray J) : BufOp J → AtomicArray J
  | .append j => (a.append j).1
  | .fetch => (a.fetch).2
  | .emptyOut => a.emptyOut

/-- Apply a sequence of buffer operations. -/
def applyOps {J : Type} [Inhabited J] (ops : List (BufOp J)) (a : AtomicArray J) :
    AtomicArray J :=
  ops.foldl applyOp a

/-- The buffer's structural invariant: nonnegative cursors, the write
cursor within the allocation, a positive allocation, and the backing
block exactly `size` slots long.  (Note it does NOT bound `headCursor`
by `tailCursor`: exhausted fetches push the head past the tail.) -/
def Inv {J : Type} (a : AtomicArray J) : Prop :=
  0 ≤ a.headCursor ∧ 0 ≤ a.tailCursor ∧ a.tailCursor ≤ a.size ∧ 1 ≤ a.size ∧
    (a.backingArray.length : Int) = a.size

/-! ## Concrete two-round scenario for the barrier claim

One worker, buffer of capacity 1; the dispatcher program is round 1
(append job `7`, dispatch) followed by round 2 (append job `42`,
dispatch) — exactly the shape of the example program's main loop. -/

/-- Initial system state of the two-round scenario. -/
def sysC1 : SysState Nat :=
  { arr := AtomicArray.init Nat 1
    prog := [DCmd.append 7, DCmd.dispatch, DCmd.append 42, DCmd.dispatch]
    dpc := DPC.idle
    wpcs := [WPC.park]
    executed := [] }

/-- A legal schedule of the two-round scenario: round 1 runs to
completion (dispatcher appends and opens the start gate, the worker
drains job 7, wakes the dispatcher and parks again, the dispatcher
resumes and resets); in round 2 the scheduler happens to run the
dispatcher alone — which the barrier must tolerate. -/
def schedC1 : List Choice :=
  [Choice.disp, Choice.disp, Choice.disp,
   Choice.work 0, Choice.work 0, Choice.work 0, Choice.work 0, Choice.work 0, Choice.work 0,
   Choice.disp, Choice.disp, Choice.disp,
   Choice.disp, Choice.disp, Choice.disp, Choice.disp, Choice.disp, Choice.disp]

/-! ## Helper lemmas -/

/-- `append` in closed form: the two branches of the growth test. -/
theorem append_eq_ite {J : Type} [Inhabited J] (a : AtomicArray J) (j : J) :
    a.append j =
      if a.tailCursor = a.size then
        ({ a with
            tailCursor := a.tailCursor + 1
            backingArray :=
              ((a.backingArray.take a.size.toNat ++
                List.replicate a.size.toNat default).set a.tailCursor.toNat j)
            size := a.size * 2
            generation := a.generation + 1 },
         { gen := a.generation + 1, idx := a.tailCursor })
      else
        ({ a with
            tailCursor := a.tailCursor + 1
            backingArray := a.backingArray.set a.tailCursor.toNat j },
         { gen := a.generation, idx := a.tailCursor }) := by
  by_cases h : a.tailCursor = a.size <;> simp [AtomicArray.append, h]

/-- `fetch` in closed form: the head cursor is incremented in every call,
and the pre-increment value is handed out exactly when it is below the
tail cursor. -/
theorem fetch_eq_ite {J : Type} (a : AtomicArray J) :
    a.fetch =
      (if a.headCursor < a.tailCursor then some a.headCursor else none,
       { a with headCursor := a.headCursor + 1 }) := by
  by_cases h : a.headCursor ≥ a.tailCursor <;>
    simp [AtomicArray.fetch, h, lt_iff_not_ge]

/-- The full effect of one `append` on a buffer satisfying the invariant:
the invariant is preserved, the tail advances by one, the allocation
doubles exactly when the buffer was full, the job lands at the old tail
index, every older slot keeps its contents, and no cursor or gate other
than the tail is touched. -/
theorem append_spec {J : Type} [Inhabited J] (a : AtomicArray J) (j : J) (h : Inv a) :
    Inv (a.append j).1 ∧
    (a.append j).1.tailCursor = a.tailCursor + 1 ∧
    (a.append j).1.size = (if a.tailCursor = a.size then a.size * 2 else a.size) ∧
    (a.append j).1.backingArray[a.tailCursor.toNat]? = some j ∧
    (∀ i : Nat, (i : Int) < a.tailCursor →
      (a.append j).1.backingArray[i]? = a.backingArray[i]?) ∧
    (a.append j).1.headCursor = a.headCursor ∧
    (a.append j).1.worker_start = a.worker_start ∧
    (a.append j).1.worker_end = a.worker_end ∧
    (a.append j).1.dispatcher_wake = a.dispatcher_wake ∧
    (a.append j).2.idx = a.tailCursor := by
  obtain ⟨h1, h2, h3, h4, h5⟩ := h
  have hlen : a.backingArray.length = a.size.toNat := by omega
  have hsz1 : 1 ≤ a.size.toNat := by omega
  rw [append_eq_ite]
  by_cases hf : a.tailCursor = a.size
  · rw [if_pos hf]
    dsimp only
    rw [show a.size.toNat = a.backingArray.length from hlen.symm, List.take_length]
    have htn : a.tailCursor.toNat = a.backingArray.length := by omega
    have hlt : a.tailCursor.toNat <
        (a.backingArray ++ List.replicate a.backingArray.length (default : J)).length := by
      simp; omega
    refine ⟨⟨h1, by dsimp only; omega, by dsimp only; omega, by dsimp only; omega, ?_⟩,
      rfl, by rw [if_pos hf], ?_, ?_, rfl, rfl, rfl, rfl, rfl⟩
    · simp; omega
    · rw [List.getElem?_set_eq_of_lt j hlt]
    · intro i hi
      have hi' : i < a.backingArray.length := by omega
      rw [List.getElem?_set_ne (by omega : a.tailCursor.toNat ≠ i),
        List.getElem?_append_left hi']
  · rw [if_neg hf]
    dsimp only
    have htn : a.tailCursor.toNat < a.backingArray.length := by omega
    refine ⟨⟨h1, by dsimp only; omega, by dsimp only; omega, by dsimp only; omega, ?_⟩,
      rfl, by rw [if_neg hf], ?_, ?_, rfl, rfl, rfl, rfl, rfl⟩
    · simp; omega
    · rw [List.getElem?_set_eq_of_lt j htn]
    · intro i hi
      rw [List.getElem?_set_ne (by omega : a.tailCursor.toNat ≠ i)]

/-- Effect of appending a whole batch on a buffer satisfying the
invariant: the tail advances by the batch length, older slots keep their
contents, the batch occupies the slots from the old tail onward in
order, and no other cursor or gate moves. -/
theorem appendAll_spec {J : Type} [Inhabited J] (js : List J) (a : AtomicArray J) (h : Inv a) :
    Inv (appendAll a js) ∧
    (appendAll a js).tailCursor = a.tailCursor + js.length ∧
    (∀ i : Nat, (i : Int) < a.tailCursor →
      (appendAll a js).backingArray[i]? = a.backingArray[i]?) ∧
    (∀ k : Nat, k < js.length →
      (appendAll a js).backingArray[a.tailCursor.toNat + k]? = js[k]?) ∧
    (appendAll a js).headCursor = a.headCursor ∧
    (appendAll a js).worker_start = a.worker_start ∧
    (appendAll a js).worker_end = a.worker_end ∧
    (appendAll a js).dispatcher_wake = a.dispatcher_wake := by
  induction js generalizing a with
  | nil =>
    refine ⟨h, by simp [appendAll], fun i _ => rfl, fun k hk => by simp at hk, rfl, rfl, rfl,
      rfl⟩
  | cons j js ih =>
    have ht0 : 0 ≤ a.tailCursor := h.2.1
    obtain ⟨hInv, htail, hsize, hnew, hold, hh, hws, hwe, hdw, hidx⟩ := append_spec a j h
    obtain ⟨rInv, rtail, rold, rnew, rh, rws, rwe, rdw⟩ := ih (a.append j).1 hInv
    have happ : appendAll a (j :: js) = appendAll (a.append j).1 js := rfl
    rw [happ]
    refine ⟨rInv, ?_, ?_, ?_, rh.trans hh, rws.trans hws, rwe.trans hwe, rdw.trans hdw⟩
    · rw [rtail, htail]
      simp only [List.length_cons]
      push_cast
      ring
    · intro i hi
      rw [rold i (by omega), hold i hi]
    · intro k hk
      cases k with
      | zero =>
        simp only [Nat.add_zero]
        rw [rold a.tailCursor.toNat (by omega)]
        simpa using hnew
      | succ k' =>
        have hsh : a.tailCursor.toNat + (k' + 1) = (a.append j).1.tailCursor.toNat + k' := by
          omega
        rw [hsh, rnew k' (by simp at hk; omega)]
        simp

/-- `fetchN` from a state whose head cursor is at `k` and tail cursor at
`N`: the indices handed out are exactly `k, k+1, ...` up to (excluding)
`min (k+n) N`, in order and once each, and the only field changed is the
head cursor, which advances by `n`. -/
theorem fetchN_spec {J : Type} (n : Nat) (a : AtomicArray J) (k N : Nat)
    (hk : a.headCursor = (k : Int)) (hN : a.tailCursor = (N : Int)) :
    (fetchN n a).1 = (List.range' k (min n (N - k))).map Int.ofNat ∧
    (fetchN n a).2.headCursor = a.headCursor + n ∧
    (fetchN n a).2.tailCursor = a.tailCursor ∧
    (fetchN n a).2.backingArray = a.backingArray ∧
    (fetchN n a).2.size = a.size ∧
    (fetchN n a).2.worker_start = a.worker_start ∧
    (fetchN n a).2.worker_end = a.worker_end ∧
    (fetchN n a).2.dispatcher_wake = a.dispatcher_wake ∧
    (fetchN n a).2.generation = a.generation := by
  induction n generalizing a k with
  | zero =>
    refine ⟨by simp [fetchN], by simp [fetchN], rfl, rfl, rfl, rfl, rfl, rfl, rfl⟩
  | succ n ih =>
    have hstep : fetchN (n + 1) a
        = ((a.fetch).1.toList ++ (fetchN n (a.fetch).2).1, (fetchN n (a.fetch).2).2) := rfl
    have hf1 : (a.fetch).1
        = if a.headCursor < a.tailCursor then some a.headCursor else none := by
      rw [fetch_eq_ite]
    have hf2 : (a.fetch).2 = { a with headCursor := a.headCursor + 1 } := by
      rw [fetch_eq_ite]
    have ha1h : ({ a with headCursor := a.headCursor + 1 } : AtomicArray J).headCursor
        = ((k + 1 : Nat) : Int) := by dsimp only; omega
    have ha1t : ({ a with headCursor := a.headCursor + 1 } : AtomicArray J).tailCursor
        = (N : Int) := hN
    obtain ⟨ih1, ih2, ih3, ih4, ih5, ih6, ih7, ih8, ih9⟩ :=
      ih { a with headCursor := a.headCursor + 1 } (k + 1) ha1h ha1t
    rw [hstep, hf1, hf2]
    refine ⟨?_, by rw [ih2]; dsimp only; omega, ih3, ih4, ih5, ih6, ih7, ih8, ih9⟩
    by_cases hlt : k < N
    · rw [if_pos (show a.headCursor < a.tailCursor by rw [hk, hN]; exact_mod_cast hlt)]
      have hmin : min (n + 1) (N - k) = min n (N - (k + 1)) + 1 := by omega
      simp only [Option.toList_some, List.singleton_append]
      rw [ih1, hk, hmin, List.range'_succ]
      simp
    · rw [if_neg (show ¬a.headCursor < a.tailCursor by rw [hk, hN]; simp; omega)]
      have h1 : min n (N - (k + 1)) = 0 := by omega
      have h2 : min (n + 1) (N - k) = 0 := by omega
      simp only [Option.toList_none, List.nil_append]
      rw [ih1, h1, h2]
      simp


/-- `append` never touches the dispatcher's wake word. -/
theorem append_fst_dispatcher_wake {J : Type} [Inhabited J] (a : AtomicArray J) (j : J) :
    ((a.append j).1).dispatcher_wake = a.dispatcher_wake := by
  by_cases h : a.tailCursor = a.size <;> simp [append_eq_ite, h]

/-- A freshly constructed buffer of positive capacity satisfies the
invariant. -/
theorem Inv_init {J : Type} [Inhabited J] (c : Int) (h : 1 ≤ c) :
    Inv (AtomicArray.init J c) := by
  unfold Inv AtomicArray.init
  refine ⟨le_refl 0, le_refl 0, by dsimp only; omega, by dsimp only; omega, ?_⟩
  dsimp only
  simp only [List.length_replicate]
  omega

/-- `fetch` preserves the invariant (the head cursor only grows). -/
theorem Inv_fetch {J : Type} (a : AtomicArray J) (h : Inv a) : Inv (a.fetch).2 := by
  obtain ⟨h1, h2, h3, h4, h5⟩ := h
  rw [fetch_eq_ite]
  exact ⟨by dsimp only; omega, h2, h3, h4, h5⟩

/-- `emptyOut` preserves the invariant. -/
theorem Inv_emptyOut {J : Type} (a : AtomicArray J) (h : Inv a) : Inv a.emptyOut := by
  obtain ⟨h1, h2, h3, h4, h5⟩ := h
  exact ⟨le_refl 0, le_refl 0, by dsimp only [AtomicArray.emptyOut]; omega, h4, h5⟩

/-- Every operation sequence preserves the invariant. -/
theorem Inv_applyOps {J : Type} [Inhabited J] (ops : List (BufOp J)) (a : AtomicArray J)
    (h : Inv a) : Inv (applyOps ops a) := by
  induction ops generalizing a with
  | nil => exact h
  | cons op rest ih =>
    have hstep : applyOps (op :: rest) a = applyOps rest (applyOp a op) := rfl
    rw [hstep]
    refine ih (applyOp a op) ?_
    cases op with
    | append j => exact (append_spec a j h).1
    | fetch => exact Inv_fetch a h
    | emptyOut => exact Inv_emptyOut a h

/-- A worker transition writes only the head cursor (via `fetch`) and the
dispatcher wake word (via `wake_all`); the storage, the write cursor, the
size and the other gates are untouched. -/
theorem workerStep_writes_frame {J : Type} [Inhabited J] (a : AtomicArray J) (pc : WPC)
    (ex : List J) :
    (workerStep a pc ex).1.backingArray = a.backingArray ∧
    (workerStep a pc ex).1.tailCursor = a.tailCursor ∧
    (workerStep a pc ex).1.size = a.size ∧
    (workerStep a pc ex).1.worker_start = a.worker_start ∧
    (workerStep a pc ex).1.worker_end = a.worker_end ∧
    (workerStep a pc ex).1.generation = a.generation := by
  cases pc with
  | park => by_cases h : a.worker_start ≠ 0 <;> simp [workerStep, h]
  | checkEnd => by_cases h : a.worker_end ≠ 0 <;> simp [workerStep, h]
  | fetchJob =>
    by_cases hc : a.headCursor < a.tailCursor <;>
      simp [workerStep, fetch_eq_ite, hc, lt_iff_not_ge]
  | exec i => simp [workerStep]
  | wakeDisp => simp [workerStep]
  | finished => simp [workerStep]

/-- A worker transition never zeroes the dispatcher wake word: it either
leaves it alone or sets it (to the nonzero wake value). -/
theorem workerStep_wake_mono {J : Type} [Inhabited J] (a : AtomicArray J) (pc : WPC)
    (ex : List J) (h : a.dispatcher_wake ≠ 0) :
    (workerStep a pc ex).1.dispatcher_wake ≠ 0 := by
  cases pc with
  | park => by_cases hb : a.worker_start ≠ 0 <;> simp [workerStep, hb] <;> exact h
  | checkEnd => by_cases hb : a.worker_end ≠ 0 <;> simp [workerStep, hb] <;> exact h
  | fetchJob =>
    by_cases hc : a.headCursor < a.tailCursor <;>
      simp [workerStep, fetch_eq_ite, hc, lt_iff_not_ge] <;> exact h
  | exec i => exact h
  | wakeDisp => simp [workerStep, wake_all_word]
  | finished => exact h

/-- The dispatcher thread never writes the dispatcher wake word at all:
every dispatcher transition leaves it exactly as it was. -/
theorem dispatcherStep_wake_frame {J : Type} [Inhabited J] (s : SysState J) :
    (dispatcherStep s).arr.dispatcher_wake = s.arr.dispatcher_wake := by
  obtain ⟨arr, prog, dpc, wpcs, ex⟩ := s
  cases dpc with
  | idle =>
    cases prog with
    | nil => rfl
    | cons c rest =>
      cases c with
      | append j => simp [dispatcherStep, append_fst_dispatcher_wake]
      | dispatch => rfl
  | wakeWorkers => rfl
  | sleepWake => by_cases h : arr.dispatcher_wake ≠ 0 <;> simp [dispatcherStep, h]
  | clearStart => rfl
  | emptyPhase => rfl

/-! ## Claim theorems -/

/-- C2: for a round with writeCursor = N, fetch hands out each index of
[0, N) to exactly one call.  A single call atomically increments the
read cursor and returns the pre-increment value exactly when it is below
the write cursor, signalling exhaustion otherwise; over any `m`
serialised racing calls the handed-out indices are exactly
`range (min m N)`, without duplicates — so with enough calls (m ≥ N)
every appended job index is delivered exactly once — and the read cursor
advances by one per call. -/
theorem C2_fetch_exactly_once :
    (∀ a : AtomicArray Nat,
      a.fetch = (if a.headCursor < a.tailCursor then some a.headCursor else none,
                 { a with headCursor := a.headCursor + 1 })) ∧
    (∀ (a : AtomicArray Nat) (N m : Nat),
      a.headCursor = 0 → a.tailCursor = (N : Int) →
      (fetchN m a).1 = (List.range (min m N)).map Int.ofNat ∧
      (fetchN m a).1.Nodup ∧
      (N ≤ m → (fetchN m a).1 = (List.range N).map Int.ofNat) ∧
      (fetchN m a).2.headCursor = (m : Int) ∧
      (fetchN m a).2.tailCursor = (N : Int) ∧
      (fetchN m a).2.backingArray = a.backingArray) := by
  refine ⟨fun a => fetch_eq_ite a, fun a N m hh ht => ?_⟩
  obtain ⟨hl, h2, h3, h4, _, _, _, _, _⟩ :=
    fetchN_spec m a 0 N (by rw [hh]; simp) ht
  have hlist : (fetchN m a).1 = (List.range (min m N)).map Int.ofNat := by
    rw [hl, List.range_eq_range']
    simp
  refine ⟨hlist, ?_, ?_, by rw [h2, hh]; simp, by rw [h3, ht], h4⟩
  · rw [hlist]
    refine List.Nodup.map ?_ (List.nodup_range (min m N))
    intro x y hxy
    exact Int.ofNat.inj hxy
  · intro hNm
    rw [hlist, min_eq_right hNm]

/-- Witness for C2: a buffer holding 3 appended jobs, drained by 5 racing
fetch calls, hands out exactly the indices 0, 1, 2. -/
theorem C2_fetch_exactly_once_witness :
    (fetchN 5 (⟨[5, 6, 7, 8], 3, 0, 4, 0, 0, 0, 0⟩ : AtomicArray Nat)).1
      = (List.range 3).map Int.ofNat :=
  (C2_fetch_exactly_once.2 ⟨[5, 6, 7, 8], 3, 0, 4, 0, 0, 0, 0⟩ 3 5 (by decide)
    (by decide)).2.2.1 (by decide)

/-- C4 counterexample: a single fetch on a fresh capacity-1 buffer — a
stable point with no append in progress — pushes the read cursor to 1
while the write cursor is 0, refuting readCursor ≤ writeCursor. -/
theorem C4_cursor_order_cex :
    (AtomicArray.init Nat 1).fetch.1 = none ∧
    (AtomicArray.init Nat 1).fetch.2.tailCursor
      < (AtomicArray.init Nat 1).fetch.2.headCursor := by decide

/-- C4 (amended): for every sequence of append, fetch and emptyOut
operations on a freshly constructed buffer of capacity ≥ 1, at every
stable point 0 ≤ readCursor, 0 ≤ writeCursor ≤ capacity, and the
allocation is exactly `capacity` slots.  The claimed bound
readCursor ≤ writeCursor, however, fails (see the counterexample):
every exhausted fetch still increments the read cursor, pushing it past
the write cursor. -/
theorem C4_cursor_invariant (c : Int) (ops : List (BufOp Nat)) (h : 1 ≤ c) :
    0 ≤ (applyOps ops (AtomicArray.init Nat c)).headCursor ∧
    0 ≤ (applyOps ops (AtomicArray.init Nat c)).tailCursor ∧
    (applyOps ops (AtomicArray.init Nat c)).tailCursor
      ≤ (applyOps ops (AtomicArray.init Nat c)).size ∧
    ((applyOps ops (AtomicArray.init Nat c)).backingArray.length : Int)
      = (applyOps ops (AtomicArray.init Nat c)).size := by
  obtain ⟨h1, h2, h3, _, h5⟩ := Inv_applyOps ops _ (Inv_init c h)
  exact ⟨h1, h2, h3, h5⟩

/-- Witness for C4 (amended): the invariant at capacity 1 after an
append, two fetches and a reset. -/
theorem C4_cursor_invariant_witness :
    (applyOps [BufOp.append 9, BufOp.fetch, BufOp.fetch, BufOp.emptyOut]
        (AtomicArray.init Nat 1)).tailCursor
      ≤ (applyOps [BufOp.append 9, BufOp.fetch, BufOp.fetch, BufOp.emptyOut]
        (AtomicArray.init Nat 1)).size :=
  (C4_cursor_invariant 1 [BufOp.append 9, BufOp.fetch, BufOp.fetch, BufOp.emptyOut]
    (by decide)).2.2.1

/-- C5 counterexample: an exhausted fetch is not free of side effects on
the buffer state — it still increments the read cursor, so the state
after the call differs from the state before it. -/
theorem C5_exhausted_fetch_cex :
    (AtomicArray.init Nat 1).fetch.1 = none ∧
    (AtomicArray.init Nat 1).fetch.2 ≠ AtomicArray.init Nat 1 := by decide

/-- C5 (amended): once readCursor ≥ writeCursor holds, every further
fetch — any number of them, from any callers — returns exhaustion until
reset, and the only state change is the read-cursor increment: the
storage, write cursor, size, generation and all three gate words are
untouched, and exhaustion itself persists. -/
theorem C5_exhaustion_persists (a : AtomicArray Nat) (n : Nat)
    (h : a.tailCursor ≤ a.headCursor) :
    (fetchN n a).1 = [] ∧
    (fetchN n a).2.headCursor = a.headCursor + n ∧
    (fetchN n a).2.tailCursor = a.tailCursor ∧
    (fetchN n a).2.backingArray = a.backingArray ∧
    (fetchN n a).2.size = a.size ∧
    (fetchN n a).2.worker_start = a.worker_start ∧
    (fetchN n a).2.worker_end = a.worker_end ∧
    (fetchN n a).2.dispatcher_wake = a.dispatcher_wake ∧
    (fetchN n a).2.generation = a.generation ∧
    (fetchN n a).2.tailCursor ≤ (fetchN n a).2.headCursor := by
  induction n generalizing a with
  | zero =>
    exact ⟨rfl, by simp [fetchN], rfl, rfl, rfl, rfl, rfl, rfl, rfl, h⟩
  | succ n ih =>
    have hstep : fetchN (n + 1) a
        = ((a.fetch).1.toList ++ (fetchN n (a.fetch).2).1, (fetchN n (a.fetch).2).2) := rfl
    have hf1 : (a.fetch).1 = none := by
      rw [fetch_eq_ite, if_neg (by omega)]
    have hf2 : (a.fetch).2 = { a with headCursor := a.headCursor + 1 } := by
      rw [fetch_eq_ite]
    have h' : ({ a with headCursor := a.headCursor + 1 } : AtomicArray Nat).tailCursor
        ≤ ({ a with headCursor := a.headCursor + 1 } : AtomicArray Nat).headCursor := by
      dsimp only; omega
    obtain ⟨i1, i2, i3, i4, i5, i6, i7, i8, i9, i10⟩ :=
      ih { a with headCursor := a.headCursor + 1 } h'
    rw [hstep, hf1, hf2]
    refine ⟨by simpa using i1, by rw [i2]; dsimp only; push_cast; ring, i3, i4, i5, i6, i7,
      i8, i9, i10⟩

/-- Witness for C5 (amended): three extra fetches on an already-exhausted
one-job round hand out nothing. -/
theorem C5_exhaustion_persists_witness :
    (fetchN 3 (⟨[9, 0], 1, 1, 2, 0, 0, 0, 0⟩ : AtomicArray Nat)).1 = [] :=
  (C5_exhaustion_persists ⟨[9, 0], 1, 1, 2, 0, 0, 0, 0⟩ 3 (by decide)).1

/-- C6: growth and content correctness of append.
(a) On a full buffer (writeCursor = capacity) a single append grows the
storage to exactly twice the capacity and every previously appended job
is copied into the new storage unchanged; (b) every append writes its
job at index writeCursor and advances writeCursor by one; (c) appending
any batch of n jobs to a fresh buffer of capacity c ≥ 1 — also when n
exceeds c — leaves slots [0, n) holding exactly the batch, in append
order. -/
theorem C6_growth_correctness :
    (∀ (a : AtomicArray Nat) (j : Nat), Inv a → a.tailCursor = a.size →
      (a.append j).1.size = a.size * 2 ∧
      (∀ i : Nat, (i : Int) < a.tailCursor →
        (a.append j).1.backingArray[i]? = a.backingArray[i]?)) ∧
    (∀ (a : AtomicArray Nat) (j : Nat), Inv a →
      (a.append j).1.backingArray[a.tailCursor.toNat]? = some j ∧
      (a.append j).1.tailCursor = a.tailCursor + 1) ∧
    (∀ (c : Int) (js : List Nat), 1 ≤ c →
      (appendAll (AtomicArray.init Nat c) js).tailCursor = (js.length : Int) ∧
      ∀ k : Nat, k < js.length →
        (appendAll (AtomicArray.init Nat c) js).backingArray[k]? = js[k]?) := by
  refine ⟨fun a j h hfull => ?_, fun a j h => ?_, fun c js h => ?_⟩
  · obtain ⟨-, -, hsize, -, hold, -, -, -, -, -⟩ := append_spec a j h
    exact ⟨by rw [hsize, if_pos hfull], hold⟩
  · obtain ⟨-, htail, -, hnew, -, -, -, -, -, -⟩ := append_spec a j h
    exact ⟨hnew, htail⟩
  · obtain ⟨-, rtail, -, rnew, -, -, -, -⟩ :=
      appendAll_spec js (AtomicArray.init Nat c) (Inv_init c h)
    refine ⟨by rw [rtail]; simp [AtomicArray.init], fun k hk => ?_⟩
    have := rnew k hk
    simpa [AtomicArray.init] using this

/-- Witness for C6: capacity 1, batch of three jobs (two growths): the
final write cursor is 3 and slot 1 holds the second job. -/
theorem C6_growth_correctness_witness :
    (appendAll (AtomicArray.init Nat 1) [10, 20, 30]).backingArray[1]?
      = some 20 :=
  (C6_growth_correctness.2.2 1 [10, 20, 30] (by decide)).2 1 (by decide)

/-- C7 counterexample: with capacity 1, appending a second job grows the
storage, which frees the block into which the first append's returned
pointer points: that pointer dangles (its generation no longer matches
the live block) and no longer refers to the first job — so the returned
address is not stable across growth. -/
theorem C7_pointer_stability_cex :
    JobPtr.deref ((AtomicArray.init Nat 1).append 10).2
        ((((AtomicArray.init Nat 1).append 10).1.append 20).1) = none ∧
    ((AtomicArray.init Nat 1).append 10).2.gen
      ≠ ((((AtomicArray.init Nat 1).append 10).1.append 20).1).generation := by decide

/-- C7 (amended): the INDEX append returns is stable — that slot holds
the same job for the rest of the round, including after later append
calls that grow the storage — but the raw address (the pointer into the
block that was current at append time) is invalidated when a later
append relocates the storage (see the counterexample). -/
theorem C7_index_stability (c : Int) (js : List Nat) (j : Nat) (ks : List Nat) (h : 1 ≤ c) :
    ((appendAll (AtomicArray.init Nat c) js).append j).2.idx
      = (appendAll (AtomicArray.init Nat c) js).tailCursor ∧
    (appendAll ((appendAll (AtomicArray.init Nat c) js).append j).1 ks).backingArray[
      (((appendAll (AtomicArray.init Nat c) js).append j).2.idx).toNat]? = some j := by
  obtain ⟨aInv, -, -, -, -, -, -, -⟩ :=
    appendAll_spec js (AtomicArray.init Nat c) (Inv_init c h)
  obtain ⟨bInv, btail, -, bnew, -, -, -, -, -, bidx⟩ :=
    append_spec (appendAll (AtomicArray.init Nat c) js) j aInv
  obtain ⟨-, -, rold, -, -, -, -, -⟩ :=
    appendAll_spec ks ((appendAll (AtomicArray.init Nat c) js).append j).1 bInv
  have ht0 : 0 ≤ (appendAll (AtomicArray.init Nat c) js).tailCursor := aInv.2.1
  refine ⟨bidx, ?_⟩
  rw [bidx]
  rw [rold (appendAll (AtomicArray.init Nat c) js).tailCursor.toNat (by omega)]
  exact bnew

/-- Witness for C7 (amended): capacity 1, one prior job, append job 7,
then two further (growing) appends: slot 1 still holds job 7. -/
theorem C7_index_stability_witness :
    (appendAll ((appendAll (AtomicArray.init Nat 1) [5]).append 7).1
        [8, 9]).backingArray[
      (((appendAll (AtomicArray.init Nat 1) [5]).append 7).2.idx).toNat]? = some 7 :=
  (C7_index_stability 1 [5] 7 [8, 9] (by decide)).2

/-- C8 counterexample: the clamping lifts only an exact zero to 1 — a
negative requested thread count passes straight through: with hardware
concurrency 4, requesting -1 resolves to -1, below the claimed floor
of 1. -/
theorem C8_thread_clamp_cex :
    resolveThreadCount (-1) 4 = -1 ∧ ¬ 1 ≤ resolveThreadCount (-1) 4 := by decide

/-- C8 (amended): the resolved worker count is min(requested, hardware)
with only an exact zero lifted to 1.  Hence for requested ≥ 1 and
hardware ≥ 1 it equals min(requested, hardware) and lies in
[1, hardware]; a requested count of 0 (with hardware ≥ 0) resolves
to 1; but negative requested values are returned unclamped (see the
counterexample).  createThreads and endThreads resolve with the same
arithmetic. -/
theorem C8_thread_clamp :
    (∀ req hw : Int, 1 ≤ req → 1 ≤ hw →
      resolveThreadCount req hw = min req hw ∧
      1 ≤ resolveThreadCount req hw ∧ resolveThreadCount req hw ≤ hw) ∧
    (∀ hw : Int, 0 ≤ hw → resolveThreadCount 0 hw = 1) ∧
    (∀ (a : AtomicArray Nat) (req hw : Int),
      (createThreads a req hw).2 = resolveThreadCount req hw ∧
      (endThreads a req hw).2 = resolveThreadCount req hw) := by
  refine ⟨fun req hw h1 h2 => ?_, fun hw h => ?_, fun a req hw => ⟨rfl, rfl⟩⟩
  · unfold resolveThreadCount
    dsimp only
    rw [if_neg (by omega : ¬ min req hw = 0)]
    exact ⟨rfl, by omega, by omega⟩
  · unfold resolveThreadCount
    dsimp only
    rw [if_pos (by omega : min 0 hw = 0)]

/-- Witness for C8 (amended): requesting 8 workers on 4-way hardware
resolves to 4. -/
theorem C8_thread_clamp_witness :
    resolveThreadCount 8 4 = min 8 4 :=
  (C8_thread_clamp.1 8 4 (by decide) (by decide)).1

/-- C10: on every buffer reachable from a fresh one of capacity ≥ 1 by
append, fetch and emptyOut operations, the write performed by append is
in bounds: the job really lands at the old write cursor, the doubling
branch is taken exactly when the write index equals the capacity, the
write index is strictly below the (post-growth) capacity, and the
allocation length continues to match the capacity. -/
theorem C10_append_in_bounds (c : Int) (ops : List (BufOp Nat)) (j : Nat) (h : 1 ≤ c) :
    ((applyOps ops (AtomicArray.init Nat c)).append j).1.backingArray[
      ((applyOps ops (AtomicArray.init Nat c)).tailCursor).toNat]? = some j ∧
    (applyOps ops (AtomicArray.init Nat c)).tailCursor
      < ((applyOps ops (AtomicArray.init Nat c)).append j).1.size ∧
    ((applyOps ops (AtomicArray.init Nat c)).append j).1.size
      = (if (applyOps ops (AtomicArray.init Nat c)).tailCursor
            = (applyOps ops (AtomicArray.init Nat c)).size
         then (applyOps ops (AtomicArray.init Nat c)).size * 2
         else (applyOps ops (AtomicArray.init Nat c)).size) ∧
    (((applyOps ops (AtomicArray.init Nat c)).append j).1.backingArray.length : Int)
      = ((applyOps ops (AtomicArray.init Nat c)).append j).1.size := by
  have hInv := Inv_applyOps ops (AtomicArray.init Nat c) (Inv_init c h)
  obtain ⟨⟨-, -, btail, -, blen⟩, htail, hsize, hnew, -, -, -, -, -, -⟩ :=
    append_spec (applyOps ops (AtomicArray.init Nat c)) j hInv
  obtain ⟨-, ht0, ht1, hs1, -⟩ := hInv
  refine ⟨hnew, ?_, hsize, blen⟩
  rw [hsize]
  by_cases hf : (applyOps ops (AtomicArray.init Nat c)).tailCursor
      = (applyOps ops (AtomicArray.init Nat c)).size
  · rw [if_pos hf]; omega
  · rw [if_neg hf]; omega

/-- Witness for C10: at capacity 1 after one append (buffer full), the
next append's write is in bounds and doubles the capacity. -/
theorem C10_append_in_bounds_witness :
    (applyOps [BufOp.append 4] (AtomicArray.init Nat 1)).tailCursor
      < ((applyOps [BufOp.append 4] (AtomicArray.init Nat 1)).append 5).1.size :=
  (C10_append_in_bounds 1 [BufOp.append 4] 5 (by decide)).2.1

/-- C9: after dispatchJobs returns, the buffer's cursor state equals the
freshly-constructed state — both cursors 0 — and the start gate is
cleared to 0, for every buffer and every worker interference during the
dispatcher's sleep (hence independent of the number of jobs or workers),
while the storage, its capacity and the allocation generation are
retained unchanged by the reset (never shrunk, never relocated).  The
interference hypothesis — workers write only the head cursor and the
wake word — is discharged against the actual worker transitions by the
second conjunct. -/
theorem C9_round_reset :
    (∀ (interf : AtomicArray Nat → AtomicArray Nat) (a : AtomicArray Nat),
      WorkerWrites interf →
      (dispatchJobs interf a).tailCursor = 0 ∧
      (dispatchJobs interf a).headCursor = 0 ∧
      (dispatchJobs interf a).worker_start = 0 ∧
      (dispatchJobs interf a).size = a.size ∧
      (dispatchJobs interf a).backingArray = a.backingArray ∧
      (dispatchJobs interf a).generation = a.generation) ∧
    (∀ (a : AtomicArray Nat) (pc : WPC) (ex : List Nat),
      (workerStep a pc ex).1.backingArray = a.backingArray ∧
      (workerStep a pc ex).1.tailCursor = a.tailCursor ∧
      (workerStep a pc ex).1.size = a.size ∧
      (workerStep a pc ex).1.worker_start = a.worker_start ∧
      (workerStep a pc ex).1.worker_end = a.worker_end ∧
      (workerStep a pc ex).1.generation = a.generation) := by
  refine ⟨fun interf a hw => ?_, fun a pc ex => workerStep_writes_frame a pc ex⟩
  obtain ⟨hb, ht, hs, hws, hwe, hg⟩ := hw { a with worker_start := wake_all_word }
  exact ⟨rfl, rfl, rfl, hs, hb, hg⟩

/-- Witness for C9: the identity interference (no worker activity at
all, e.g. an empty round) of a fresh capacity-2 buffer. -/
theorem C9_round_reset_witness :
    (dispatchJobs id (AtomicArray.init Nat 2)).tailCursor = 0 :=
  (C9_round_reset.1 id (AtomicArray.init Nat 2)
    (fun _ => ⟨rfl, rfl, rfl, rfl, rfl, rfl⟩)).1

/-- C3: with the worker interference frozen, the whole effect of
dispatchJobs is exactly to clear the start gate to 0 and reset the two
cursors to 0 — every other field, in particular the done gate
dispatcher_wake, is left unchanged.  Moreover no transition of any
thread of the system ever clears dispatcher_wake: once a worker's
wake_all has made it nonzero it stays nonzero through every later step,
hence for all subsequent rounds. -/
theorem C3_dispatch_wake_frame :
    (∀ (J : Type) (a : AtomicArray J),
      dispatchJobs id a
        = { a with worker_start := 0, tailCursor := 0, headCursor := 0 }) ∧
    (∀ (s : SysState Nat) (c : Choice),
      s.arr.dispatcher_wake ≠ 0 → (step c s).arr.dispatcher_wake ≠ 0) := by
  refine ⟨fun J a => rfl, fun s c h => ?_⟩
  cases c with
  | disp =>
    show (dispatcherStep s).arr.dispatcher_wake ≠ 0
    rw [dispatcherStep_wake_frame]
    exact h
  | work i =>
    cases hg : s.wpcs[i]? with
    | none => simpa [step, hg] using h
    | some pc =>
      simpa [step, hg] using workerStep_wake_mono s.arr pc s.executed h

/-- Witness for C3: a dispatcher step from a concrete state with the wake
word set keeps it nonzero. -/
theorem C3_dispatch_wake_frame_witness :
    (step Choice.disp
      ({ arr := ⟨[0], 0, 0, 1, 0, 0, 1, 0⟩, prog := [], dpc := DPC.idle, wpcs := [WPC.park],
         executed := [] } : SysState Nat)).arr.dispatcher_wake ≠ 0 :=
  C3_dispatch_wake_frame.2
    { arr := ⟨[0], 0, 0, 1, 0, 0, 1, 0⟩, prog := [], dpc := DPC.idle, wpcs := [WPC.park],
      executed := [] } Choice.disp (by decide)

/-- C1 (refuted by the code): the full barrier holds only for the first
round after pool creation.  In the two-round scenario `sysC1` (one
worker; round 1 appends job 7 and dispatches, round 2 appends job 42 and
dispatches), the legal schedule `schedC1` completes round 1 in order,
but the second dispatchJobs call returns immediately:
`sleep(dispatcher_wake)` falls through because the wake word was left
nonzero by round 1 and dispatchJobs never clears it.  At that point the
program has run to completion (both dispatch calls returned), yet job 42
— appended before the second call — was never executed (the log holds
only job 7, 42 sits in the buffer), the worker is still parked, and the
start gate is back at 0, so no schedule of further worker steps can
ever run it: every non-dispatcher step is a stutter. -/
theorem C1_second_round_barrier_fails :
    (run schedC1 sysC1).prog = [] ∧
    (run schedC1 sysC1).dpc = DPC.idle ∧
    (run schedC1 sysC1).executed = [7] ∧
    (run schedC1 sysC1).arr.backingArray[0]? = some 42 ∧
    (run schedC1 sysC1).wpcs = [WPC.park] ∧
    (run schedC1 sysC1).arr.worker_start = 0 ∧
    (∀ c : Choice, c ≠ Choice.disp → step c (run schedC1 sysC1) = run schedC1 sysC1) := by
  refine ⟨by decide, by decide, by decide, by decide, by decide, by decide, ?_⟩
  intro c hc
  cases c with
  | disp => exact absurd rfl hc
  | work i =>
    cases i with
    | zero => decide
    | succ n => rfl

/-- Witness for C1's barrier-failure theorem: the parked worker's step
after the second dispatch has returned is a stutter. -/
theorem C1_second_round_barrier_fails_witness :
    step (Choice.work 0) (run schedC1 sysC1) = run schedC1 sysC1 :=
  C1_second_round_barrier_fails.2.2.2.2.2.2 (Choice.work 0) (by decide)

end SimpleAtomicWorkerPool
